import Mathlib

/-!
Shallow embedding of the consensus-calling and read-overlap engine of
`srtools.py`.

Conventions of the embedding:
* Python `str` values are embedded as `List Char` (sequences, CIGAR strings).
* Python `int` is embedded as `Int`; CIGAR operation lengths, which are
  produced by parsing digit runs, are `Nat`.
* Python true division in `majority` is embedded as exact division in `ℚ`.
* Fallible code (`consensus`, which can raise `UnmappedReadError` or a
  `ValueError` from `min`/`max` of an empty dict) returns `Except`.
* The dictionary `all_nucleotides` of `consensus` is embedded by the
  functions `column` (the list stored at one key, in read-insertion order)
  and `keyBounds`/`minKey`/`maxKey` (the key set and its extrema).
-/

/-- A CIGAR in parsed form: a list of (length, operation) pairs, as produced
by `read_cigar`. -/
abbrev Cigar := List (Nat × Char)

/-- A sam-format sequence read (class `Read` of srtools.py).  The `cigar`
field stores the already-parsed operation list (the constructor applies
`read_cigar`); `pos` is the 1-based mapping position, 0 meaning unmapped. -/
structure Read where
  qname : String
  flag : Int
  rname : String
  pos : Int
  mapq : Int
  cigar : Cigar
  rnext : String
  pnext : Int
  tlen : Int
  seq : List Char
  qual : List Char
  tags : List String
deriving DecidableEq, Repr

/-- `sum([i for i, o in self.cigar if o == "M"])` in `Read.get_covered_range`. -/
def sumMatch (cigar : Cigar) : Int :=
  (cigar.filterMap (fun p => if p.2 = 'M' then some ((p.1 : Int)) else none)).sum

/-- `Read.get_covered_range`: the first and last position covered by the read. -/
def Read.get_covered_range (r : Read) : Int × Int :=
  (r.pos, r.pos + sumMatch r.cigar - 1)

/-- A stripped read: the 3-tuple (sequence, cigar, position) used by the
indel normalizer (`dot_indels` and its helpers). -/
abbrev SR := List Char × Cigar × Int

/-- `int(a)` applied to a run of decimal digit characters (Python semantics
for digit-only strings: the usual base-10 value). -/
def toNatDigits (ds : List Char) : Nat :=
  ds.foldl (fun a c => 10 * a + (c.toNat - 48)) 0

/-- Scanner for `re.findall(r'(\d+)(\D)', cigar)`: accumulate a maximal
digit run; a following non-digit closes a token; a non-digit with no
pending digits is skipped; pending digits at end of string match nothing. -/
def rcGo : List Char → List Char → List (Nat × Char)
  | _, [] => []
  | acc, c :: cs =>
    if c.isDigit then rcGo (acc ++ [c]) cs
    else if acc = [] then rcGo [] cs
    else (toNatDigits acc, c) :: rcGo [] cs

/-- `read_cigar`: parse a cigar string into a list of (length, op) pairs. -/
def read_cigar (s : List Char) : List (Nat × Char) :=
  rcGo [] s

/-- Canonical decimal digits of a natural number (what Python `str(int)`
prints for non-negative integers), with a structural fuel argument. -/
def natDigitsF : Nat → Nat → List Char
  | 0, _ => []
  | f + 1, n =>
    if n < 10 then [Char.ofNat (48 + n)]
    else natDigitsF f (n / 10) ++ [Char.ofNat (48 + n % 10)]

/-- Canonical decimal digits of `n` (Python `str(n)` for `n ≥ 0`). -/
def natDigits (n : Nat) : List Char :=
  natDigitsF (n + 1) n

/-- `print_cigar`: render a parsed cigar in SAM format; the empty list
renders as `*`, otherwise each pair renders as `str(length) ++ op`. -/
def print_cigar (ops : List (Nat × Char)) : List Char :=
  if ops = [] then ['*']
  else ops.flatMap (fun p => natDigits p.1 ++ [p.2])

/-- Loop of `convert_indecies`: carries the running `index` accumulator. -/
def ciGo : Nat → List (Nat × Char) → List (Nat × Nat × Char)
  | _, [] => []
  | index, (i, o) :: rest => (index, i, o) :: ciGo (index + i) rest

/-- `convert_indecies`: converts a cigar from (n, operator) format to
(index, n, operator), where index is the running sum of lengths. -/
def convert_indecies (cigar : Cigar) : List (Nat × Nat × Char) :=
  ciGo 0 cigar

/-- The deletion/skip offsets of a cigar: the comprehension
`[(i, n) for i, n, o in c_cigar if o in "ND"]` of `make_dot_queue`. -/
def dnOffsets (cigar : Cigar) : List (Int × Nat) :=
  (convert_indecies cigar).filterMap
    (fun u => if u.2.2 = 'N' ∨ u.2.2 = 'D' then some ((u.1 : Int), u.2.1) else none)

/-- The insertion offsets of a cigar (untranslated): the entries selected by
`o == "I"` in `make_dot_queue`. -/
def iOffsets (cigar : Cigar) : List (Int × Nat) :=
  (convert_indecies cigar).filterMap
    (fun u => if u.2.2 = 'I' then some ((u.1 : Int), u.2.1) else none)

/-- Loop of `make_dot_queue`: `queue` is the accumulator extended once per
read of the stripped read list. -/
def mdqGo (sr : SR) : List (Int × Nat) → List SR → List (Int × Nat)
  | acc, [] => acc
  | acc, t :: ts =>
    mdqGo sr
      (acc ++
        (if t.1 = sr.1 ∧ t.2.2 = sr.2.2 then
          (convert_indecies t.2.1).filterMap
            (fun u => if u.2.2 = 'N' ∨ u.2.2 = 'D' then some ((u.1 : Int), u.2.1) else none)
        else
          (convert_indecies t.2.1).filterMap
            (fun u => if u.2.2 = 'I' then some ((u.1 : Int) + (t.2.2 - sr.2.2), u.2.1) else none)))
      ts

/-- `make_dot_queue`: the queue of positions at which the stripped read
should be dotted to indicate an indel. -/
def make_dot_queue (sr : SR) (srl : List SR) : List (Int × Nat) :=
  mdqGo sr [] srl

/-- Normalisation of a Python slice index for a list of length `len`:
negative indices count from the end, and the result is clamped to
`[0, len]` (semantics of `seq[:i]` and `seq[i:]`). -/
def pyIdx (len : Nat) (i : Int) : Nat :=
  (max 0 (min (if i < 0 then (len : Int) + i else i) (len : Int))).toNat

/-- `seq[:i] + '.' * n + seq[i:]` of `dot_from_queue`. -/
def pyInsertDots (s : List Char) (i : Int) (n : Nat) : List Char :=
  s.take (pyIdx s.length i) ++ List.replicate n '.' ++ s.drop (pyIdx s.length i)

/-- `dot_from_queue`: splice dots into the sequence at each queued (i, n). -/
def dot_from_queue (sr : SR) (queue : List (Int × Nat)) : List Char :=
  queue.foldl (fun s p => pyInsertDots s p.1 p.2) sr.1

/-- `dot_indels`: strip each read to (seq, cigar, pos), dot each sequence
according to its queue, and return the (dotted seq, cigar, pos) triples in
input order (the `zip` of the Python code). -/
def dot_indels (reads : List Read) : List SR :=
  let stripped := reads.map (fun r => (r.seq, r.cigar, r.pos))
  stripped.map (fun sr => (dot_from_queue sr (make_dot_queue sr stripped), sr.2.1, sr.2.2))

/-- Loop of `majority`: scan the collection in order (`for i in nucleotides`),
keeping the full collection for the count/len test. -/
def majGo (full : List Char) (cutoff : ℚ) : List Char → Char
  | [] => 'N'
  | x :: xs =>
    if (full.count x : ℚ) / (full.length : ℚ) > cutoff then x
    else majGo full cutoff xs

/-- `majority`: the first element whose frequency strictly exceeds the
cutoff fraction of the collection, else 'N'. -/
def majority (nucleotides : List Char) (cutoff : ℚ) : Char :=
  majGo nucleotides cutoff nucleotides

/-- The two failure modes of `consensus`: the explicit `UnmappedReadError`
raise, and the `ValueError` that `min`/`max` raise on the empty
`all_nucleotides` dict. -/
inductive ConsensusError where
  | unmappedRead
  | emptyRange
deriving DecidableEq, Repr

/-- The list stored in `all_nucleotides` at key `i`: one base per dotted
read covering position `i`, appended in read-input order. -/
def column (drs : List SR) (i : Int) : List Char :=
  drs.flatMap (fun t =>
    if t.2.2 ≤ i ∧ i < t.2.2 + (t.1.length : Int) then [t.1.getD (i - t.2.2).toNat 'N']
    else [])

/-- The (first key, last key) contributed to `all_nucleotides` by each
dotted read with a non-empty sequence. -/
def keyBounds (drs : List SR) : List (Int × Int) :=
  drs.filterMap (fun t =>
    if t.1.length = 0 then none else some (t.2.2, t.2.2 + (t.1.length : Int) - 1))

/-- `min(all_nucleotides)`: the least key. -/
def minKey (b : Int × Int) (bs : List (Int × Int)) : Int :=
  bs.foldl (fun m p => min m p.1) b.1

/-- `max(all_nucleotides)`: the greatest key. -/
def maxKey (b : Int × Int) (bs : List (Int × Int)) : Int :=
  bs.foldl (fun m p => max m p.2) b.2

/-- The consensus loop over `range(min(all_nucleotides), max(all_nucleotides) + 1)`:
majority vote per present position, 'N' on `KeyError`, then
`.replace('.', '')`. -/
def consensusRange (drs : List SR) (cutoff : ℚ) (lo hi : Int) : List Char :=
  ((List.range (hi - lo + 1).toNat).map (fun (k : Nat) =>
    match column drs (lo + (k : Int)) with
    | [] => 'N'
    | l => majority l cutoff)).filter (fun c => c ≠ '.')

/-- `consensus` after the unmapped-read check: fails like Python `min` on an
empty dict when no position was recorded, else votes over the key range. -/
def consensusMapped (drs : List SR) (cutoff : ℚ) : Except ConsensusError (List Char) :=
  match keyBounds drs with
  | [] => Except.error ConsensusError.emptyRange
  | b :: bs => Except.ok (consensusRange drs cutoff (minKey b bs) (maxKey b bs))

/-- `consensus`: the consensus sequence of a collection of reads, raising
`UnmappedReadError` when a read has position 0. -/
def consensus (reads : List Read) (cutoff : ℚ) : Except ConsensusError (List Char) :=
  let drs := dot_indels reads
  if drs.any (fun t => decide (t.2.2 = 0)) then Except.error ConsensusError.unmappedRead
  else consensusMapped drs cutoff

/-- `overlaps`: `x0 <= y0 <= x1 or y0 <= y1 <= x1` on the covered ranges. -/
def overlaps (read1 read2 : Read) : Bool :=
  let x := read1.get_covered_range
  let y := read2.get_covered_range
  decide (x.1 ≤ y.1 ∧ y.1 ≤ x.2) || decide (y.1 ≤ y.2 ∧ y.2 ≤ x.2)

/-- Loop of `expressed_loci`: `locus` is the current group; a read is
appended when the group is empty or overlaps the last member, otherwise the
group is yielded and a new one starts; the final group is always yielded. -/
def elGo : List Read → List Read → List (List Read)
  | locus, [] => [locus]
  | locus, r :: rs =>
    match locus.getLast? with
    | none => elGo (locus ++ [r]) rs
    | some l => if overlaps l r then elGo (locus ++ [r]) rs else locus :: elGo [r] rs

/-- `expressed_loci`: group a read stream into lists of chain-overlapping reads. -/
def expressed_loci (reads : List Read) : List (List Read) :=
  elGo [] reads

/-- One step of the `coverage` loop: widen (first, last) with a read's range. -/
def covStep (p : Int × Int) (r : Read) : Int × Int :=
  let q := r.get_covered_range
  (if q.1 < p.1 then q.1 else p.1, if q.2 > p.2 then q.2 else p.2)

/-- `coverage`: (first, last) base covered by the reads; (0, 0) for no reads. -/
def coverage : List Read → Int × Int
  | [] => (0, 0)
  | r :: rs => rs.foldl covStep r.get_covered_range

/-- A GFF genomic feature (class `Feature`); the Python `end` attribute is
named `fEnd` (`end` is reserved in Lean) and `attribute` is named `attr`. -/
structure Feature where
  sequence : String
  source : String
  f_type : String
  start : Int
  fEnd : Int
  score : Option ℚ
  strand : Option String
  frame : Option String
  attr : Option String
deriving DecidableEq, Repr

/-- Loop of `in_features`: endpoint-in-feature test with early break once a
feature starts past the last covered base. -/
def ifGo (r0 r1 : Int) : List Feature → Bool
  | [] => false
  | f :: fs =>
    if (f.start ≤ r0 ∧ r0 ≤ f.fEnd) ∨ (f.start ≤ r1 ∧ r1 ≤ f.fEnd) then true
    else if r1 < f.start then false
    else ifGo r0 r1 fs

/-- `in_features`: whether the reads' coverage hull touches a feature. -/
def in_features (reads : List Read) (features : List Feature) : Bool :=
  ifGo (coverage reads).1 (coverage reads).2 features

/-- The well-formed operation strings of the round-trip claim: the literal
`*`, or a non-empty concatenation of `(decimal integer length)(single
non-digit letter)` tokens, i.e. exactly the serializations of non-empty
operation lists whose kinds are non-digits (decimal integers written
canonically, as `print_cigar` writes them). -/
def WellFormedCigarString (s : List Char) : Prop :=
  s = ['*'] ∨
    ∃ ops : List (Nat × Char), ops ≠ [] ∧ (∀ p ∈ ops, p.2.isDigit = false) ∧ s = print_cigar ops

/-- Helper to build a concrete mapped read: only `pos`, `cigar` and `seq`
matter to the engine under verification. -/
def mkRead (pos : Int) (cigar : Cigar) (seq : List Char) : Read :=
  { qname := "r", flag := 0, rname := "chr1", pos := pos, mapq := 0, cigar := cigar,
    rnext := "=", pnext := 0, tlen := 0, seq := seq, qual := [], tags := [] }

/-- Helper to build a concrete feature: only `start` and `fEnd` matter. -/
def mkFeature (start fEnd : Int) : Feature :=
  { sequence := "chr1", source := "src", f_type := "gene", start := start, fEnd := fEnd,
    score := none, strand := none, frame := none, attr := none }

/-- The boundary condition between two consecutive locus groups: the last
read of the earlier group does not overlap the first read of the later. -/
def groupBoundary (g h : List Read) : Prop :=
  ∀ a ∈ g.getLast?, ∀ b ∈ h.head?, overlaps a b = false

/-- Concrete read with covered range (1, 5). -/
def el1 : Read := mkRead 1 [(5, 'M')] ['A', 'A', 'A', 'A', 'A']

/-- Concrete read with covered range (3, 7). -/
def el2 : Read := mkRead 3 [(5, 'M')] ['C', 'C', 'C', 'C', 'C']

/-- Concrete read with covered range (13, 17). -/
def el3 : Read := mkRead 13 [(5, 'M')] ['G', 'G', 'G', 'G', 'G']

/-- Concrete read with covered range (14, 18). -/
def el4 : Read := mkRead 14 [(5, 'M')] ['T', 'T', 'T', 'T', 'T']

/-- Concrete mapped read with covered range (10, 20). -/
def raBug : Read := mkRead 10 [(11, 'M')] []

/-- Concrete mapped read with covered range (1, 2). -/
def rbBug : Read := mkRead 1 [(2, 'M')] []

/-- Concrete stripped read whose cigar has a skipped-region (N) operation
and no deletion (D) operation. -/
def exN : SR := (List.replicate 10 'A', [(5, 'M'), (3, 'N'), (5, 'M')], 1)

/-- Concrete stripped read at position 5 with a plain-match cigar. -/
def srA : SR := (['A', 'C'], [(2, 'M')], 5)

/-- Concrete stripped read at position 3 whose cigar has one insertion. -/
def srB : SR := (['C', 'C', 'C'], [(1, 'M'), (1, 'I'), (1, 'M')], 3)

/-- Concrete unmapped read (position 0). -/
def u0 : Read := mkRead 0 [] ['A', 'C']

/-- Concrete mapped read with a deletion, for the single-read consensus. -/
def wr8 : Read := mkRead 1 [(2, 'M'), (2, 'D'), (2, 'M')] ['A', 'C', 'G', 'T']

/-- Concrete mapped read with an empty sequence and an empty cigar. -/
def cex8 : Read := mkRead 5 [] []

/-- Concrete read whose coverage is (1, 10). -/
def cr4 : Read := mkRead 1 [(10, 'M')] []

/-- Concrete feature spanning [3, 4], nested strictly inside (1, 10). -/
def cf4 : Feature := mkFeature 3 4

/-- Concrete read whose coverage is (1, 5). -/
def wr4 : Read := mkRead 1 [(5, 'M')] []

/-- Concrete feature spanning [3, 9]. -/
def wf4 : Feature := mkFeature 3 9

theorem elGo_join (rs : List Read) :
    ∀ locus : List Read, (elGo locus rs).flatten = locus ++ rs := by
  induction rs with
  | nil => intro locus; simp [elGo]
  | cons r rs ih =>
    intro locus
    cases h : locus.getLast? with
    | none =>
      have hl : locus = [] := List.getLast?_eq_none_iff.mp h
      subst hl
      simp [elGo, ih]
    | some l =>
      by_cases ho : overlaps l r
      · simp [elGo, h, ho, ih]
      · simp [elGo, h, ho, ih]

/-- C7: for every finite read stream, concatenating the groups produced by
expressed_loci, in yield order, reproduces the original stream exactly. -/
theorem expressed_loci_partition (reads : List Read) :
    (expressed_loci reads).flatten = reads := by
  simpa using elGo_join reads []

theorem expressed_loci_partition_witness :
    (expressed_loci [el1, el3]).flatten = [el1, el3] :=
  expressed_loci_partition [el1, el3]

theorem elGo_chain (rs : List Read) :
    ∀ locus : List Read, List.Chain' (fun a b => overlaps a b = true) locus →
      ∀ g ∈ elGo locus rs, List.Chain' (fun a b => overlaps a b = true) g := by
  induction rs with
  | nil =>
    intro locus hc g hg
    simp only [elGo, List.mem_singleton] at hg
    exact hg ▸ hc
  | cons r rs ih =>
    intro locus hc g hg
    cases h : locus.getLast? with
    | none =>
      have hl : locus = [] := List.getLast?_eq_none_iff.mp h
      subst hl
      simp only [elGo] at hg
      exact ih [r] (List.chain'_singleton r) g hg
    | some l =>
      by_cases ho : overlaps l r
      · simp only [elGo, h, ho, if_pos] at hg
        refine ih (locus ++ [r]) ?_ g hg
        exact List.chain'_append.mpr ⟨hc, List.chain'_singleton r, by
          intro x hx y hy
          simp only [h, Option.mem_def, Option.some.injEq] at hx
          simp only [List.head?_cons, Option.mem_def, Option.some.injEq] at hy
          subst hx; subst hy; exact ho⟩
      · simp only [elGo, h, ho, if_neg, Bool.false_eq_true, not_false_iff, List.mem_cons] at hg
        rcases hg with hg | hg
        · exact hg ▸ hc
        · exact ih [r] (List.chain'_singleton r) g hg

theorem elGo_head (rs : List Read) :
    ∀ locus : List Read, locus ≠ [] →
      ∀ g, (elGo locus rs).head? = some g → g.head? = locus.head? := by
  induction rs with
  | nil =>
    intro locus _ g hg
    simp only [elGo, List.head?_cons, Option.some.injEq] at hg
    subst hg; rfl
  | cons r rs ih =>
    intro locus hne g hg
    cases h : locus.getLast? with
    | none => exact absurd (List.getLast?_eq_none_iff.mp h) hne
    | some l =>
      by_cases ho : overlaps l r
      · simp only [elGo, h, ho, if_pos] at hg
        have := ih (locus ++ [r]) (by simp) g hg
        rw [this]
        cases locus with
        | nil => exact absurd rfl hne
        | cons a t => simp
      · simp only [elGo, h, ho, if_neg, Bool.false_eq_true, not_false_iff,
          List.head?_cons, Option.some.injEq] at hg
        subst hg; rfl

theorem elGo_boundary (rs : List Read) :
    ∀ locus : List Read, List.Chain' groupBoundary (elGo locus rs) := by
  induction rs with
  | nil => intro locus; exact List.chain'_singleton locus
  | cons r rs ih =>
    intro locus
    cases h : locus.getLast? with
    | none => simp only [elGo, h]; exact ih (locus ++ [r])
    | some l =>
      by_cases ho : overlaps l r
      · simp only [elGo, h, ho, if_pos]; exact ih (locus ++ [r])
      · simp only [elGo, h, ho, if_neg, Bool.false_eq_true, not_false_iff]
        refine List.chain'_cons'.mpr ⟨?_, ih [r]⟩
        intro y hy
        intro a ha b hb
        simp only [h, Option.mem_def, Option.some.injEq] at ha
        subst ha
        have hhead := elGo_head rs [r] (by simp) y hy
        rw [hhead] at hb
        simp only [List.head?_cons, Option.mem_def, Option.some.injEq] at hb
        subst hb
        exact Bool.not_eq_true _ ▸ (by simpa using ho)

/-- C6: expressed_loci groups a read stream by chained adjacency: within
every yielded group consecutive reads overlap, the last read of a group
does not overlap the first read of the next group, and the four concrete
reads with covered ranges (1,5), (3,7), (13,17), (14,18) yield exactly the
two groups [el1, el2] and [el3, el4]. -/
theorem expressed_loci_chained_adjacency :
    (∀ reads : List Read, ∀ g ∈ expressed_loci reads,
        List.Chain' (fun a b => overlaps a b = true) g)
    ∧ (∀ reads : List Read, List.Chain' groupBoundary (expressed_loci reads))
    ∧ expressed_loci [el1, el2, el3, el4] = [[el1, el2], [el3, el4]] := by
  refine ⟨?_, ?_, ?_⟩
  · intro reads g hg
    exact elGo_chain reads [] List.chain'_nil g hg
  · intro reads
    exact elGo_boundary reads []
  · decide

theorem expressed_loci_chained_adjacency_witness :
    List.Chain' (fun a b => overlaps a b = true) [el1, el2] :=
  expressed_loci_chained_adjacency.1 [el1, el2, el3, el4] [el1, el2] (by decide)

/-- C1: the claim asserts overlaps is symmetric for all reads with valid
covered ranges; the code is not: for the mapped reads raBug (range (10,20))
and rbBug (range (1,2)), both with at least one match operation and
first <= last, the two ranges are disjoint yet overlaps raBug rbBug is
true while overlaps rbBug raBug is false (the second disjunct of the code
compares the second read's endpoints with each other instead of with the
first read's range, contradicting the function's own docstring). -/
theorem overlaps_asymmetric_on_valid_ranges :
    (raBug.get_covered_range).1 ≤ (raBug.get_covered_range).2 ∧
    (rbBug.get_covered_range).1 ≤ (rbBug.get_covered_range).2 ∧
    raBug.pos ≠ 0 ∧ rbBug.pos ≠ 0 ∧
    (rbBug.get_covered_range).2 < (raBug.get_covered_range).1 ∧
    overlaps raBug rbBug = true ∧ overlaps rbBug raBug = false := by
  decide

/-- C10: consensus of an empty collection of reads returns no sequence and
does not fail with the unmapped-read error: it fails with the error of
taking min/max over the empty set of recorded positions. -/
theorem consensus_empty_fails (cutoff : ℚ) :
    consensus [] cutoff = Except.error ConsensusError.emptyRange := rfl

theorem consensus_empty_fails_witness :
    consensus [] 1 = Except.error ConsensusError.emptyRange :=
  consensus_empty_fails 1

theorem majGo_eq_find (full : List Char) (cutoff : ℚ) :
    ∀ l : List Char,
      majGo full cutoff l =
        (l.find? (fun x =>
          decide ((full.count x : ℚ) / (full.length : ℚ) > cutoff))).getD 'N' := by
  intro l
  induction l with
  | nil => rfl
  | cons x xs ih =>
    by_cases h : (full.count x : ℚ) / (full.length : ℚ) > cutoff
    · simp [majGo, List.find?_cons, h]
    · simp [majGo, List.find?_cons, h, ih]

/-- C5: majority returns the first base, scanning the collection in its
collected order, whose count divided by the total number of bases strictly
exceeds the cutoff, and returns 'N' when no base strictly exceeds it (so a
tie at exactly the cutoff yields 'N'). -/
theorem majority_first_above_cutoff (nucleotides : List Char) (cutoff : ℚ) :
    majority nucleotides cutoff =
      (nucleotides.find? (fun x =>
        decide ((nucleotides.count x : ℚ) / (nucleotides.length : ℚ) > cutoff))).getD 'N' :=
  majGo_eq_find nucleotides cutoff nucleotides

theorem majority_first_above_cutoff_witness :
    majority ['A', 'G', 'A'] (1 / 2) = 'A' := by
  rw [majority_first_above_cutoff]
  rw [List.find?_cons_of_pos]
  · rfl
  · rw [decide_eq_true_eq]
    have hc : (['A', 'G', 'A'] : List Char).count 'A' = 2 := rfl
    have hl : (['A', 'G', 'A'] : List Char).length = 3 := rfl
    rw [hc, hl]
    norm_num

theorem mdqGo_eq (sr : SR) :
    ∀ (l : List SR) (acc : List (Int × Nat)),
      mdqGo sr acc l = acc ++ l.flatMap (fun t =>
        if t.1 = sr.1 ∧ t.2.2 = sr.2.2 then
          (convert_indecies t.2.1).filterMap
            (fun u => if u.2.2 = 'N' ∨ u.2.2 = 'D' then some ((u.1 : Int), u.2.1) else none)
        else
          (convert_indecies t.2.1).filterMap
            (fun u => if u.2.2 = 'I' then some ((u.1 : Int) + (t.2.2 - sr.2.2), u.2.1)
              else none)) := by
  intro l
  induction l with
  | nil => intro acc; simp [mdqGo]
  | cons t ts ih =>
    intro acc
    rw [mdqGo, ih, List.flatMap_cons, List.append_assoc]

/-- C3 (amended): the dot queue for a stripped read is built by scanning the
whole group in order; a member whose sequence and position both equal the
read's contributes its deletion and skipped-region offsets (kinds D and N)
untranslated, and every other member contributes its insertion offsets
(kind I) translated by the difference of start positions. -/
theorem make_dot_queue_characterization (sr : SR) (srl : List SR) :
    make_dot_queue sr srl = srl.flatMap (fun t =>
      if t.1 = sr.1 ∧ t.2.2 = sr.2.2 then dnOffsets t.2.1
      else (iOffsets t.2.1).map (fun p => (p.1 + (t.2.2 - sr.2.2), p.2))) := by
  rw [make_dot_queue, mdqGo_eq, List.nil_append]
  congr 1
  funext t
  by_cases h : t.1 = sr.1 ∧ t.2.2 = sr.2.2
  · rw [if_pos h, if_pos h]
    rfl
  · rw [if_neg h, if_neg h, iOffsets, List.map_filterMap]
    congr 1
    funext u
    by_cases hI : u.2.2 = 'I'
    · simp [hI]
    · simp [hI]

/-- C3 counterexample: the claim predicts that for a one-read group the
queue consists of the read's Deletion-kind offsets only; exN has no
Deletion operation and no other group member, yet its queue contains the
entry (5, 3) coming from its skipped-region (N) operation. -/
theorem make_dot_queue_claim_counterexample :
    make_dot_queue exN [exN] = [((5 : Int), 3)] ∧
    (convert_indecies exN.2.1).filterMap
      (fun u => if u.2.2 = 'D' then some ((u.1 : Int), u.2.1) else none) = [] := by
  decide

theorem make_dot_queue_characterization_witness :
    make_dot_queue srA [srA, srB] = [((-1 : Int), 1)] := by
  rw [make_dot_queue_characterization]
  decide

theorem any_map_comp {α β : Type} (f : α → β) (p : β → Bool) :
    ∀ l : List α, (l.map f).any p = l.any (fun a => p (f a)) := by
  intro l
  induction l with
  | nil => rfl
  | cons x xs ih => simp [ih]

theorem dot_indels_pos_any (reads : List Read) :
    (dot_indels reads).any (fun t => decide (t.2.2 = 0)) =
      reads.any (fun r => decide (r.pos = 0)) := by
  simp only [dot_indels]
  rw [any_map_comp, any_map_comp]

theorem consensusMapped_ne_unmapped (drs : List SR) (cutoff : ℚ) :
    consensusMapped drs cutoff ≠ Except.error ConsensusError.unmappedRead := by
  simp only [consensusMapped]
  split <;> simp

/-- C2: for a non-empty collection of reads, consensus fails with the
unmapped-read error, returning no result, exactly when some read has
position 0. -/
theorem consensus_unmapped_iff (reads : List Read) (cutoff : ℚ) (h : reads ≠ []) :
    consensus reads cutoff = Except.error ConsensusError.unmappedRead ↔
      ∃ r ∈ reads, r.pos = 0 := by
  simp only [consensus]
  by_cases ha : (dot_indels reads).any (fun t => decide (t.2.2 = 0)) = true
  · rw [if_pos ha]
    constructor
    · intro _
      have hb : reads.any (fun r => decide (r.pos = 0)) = true := by
        rw [← dot_indels_pos_any]; exact ha
      simpa using List.any_eq_true.mp hb
    · intro _; rfl
  · rw [if_neg ha]
    constructor
    · intro hc
      exact absurd hc (consensusMapped_ne_unmapped _ _)
    · rintro ⟨r, hr, hp⟩
      exfalso
      apply ha
      rw [dot_indels_pos_any]
      exact List.any_eq_true.mpr ⟨r, hr, by simp [hp]⟩

theorem consensus_unmapped_iff_witness :
    consensus [u0] (1 / 2) = Except.error ConsensusError.unmappedRead :=
  (consensus_unmapped_iff [u0] (1 / 2) (List.cons_ne_nil u0 [])).mpr
    ⟨u0, List.mem_singleton.mpr rfl, rfl⟩

theorem ifGo_iff (r0 r1 : Int) (h01 : r0 ≤ r1) :
    ∀ fs : List Feature, List.Pairwise (fun f g => f.start ≤ g.start) fs →
      (ifGo r0 r1 fs = true ↔
        ∃ f ∈ fs, (f.start ≤ r0 ∧ r0 ≤ f.fEnd) ∨ (f.start ≤ r1 ∧ r1 ≤ f.fEnd)) := by
  intro fs
  induction fs with
  | nil => intro _; simp [ifGo]
  | cons f fs ih =>
    intro hp
    rw [List.pairwise_cons] at hp
    obtain ⟨hf, hp'⟩ := hp
    by_cases hc : (f.start ≤ r0 ∧ r0 ≤ f.fEnd) ∨ (f.start ≤ r1 ∧ r1 ≤ f.fEnd)
    · simp only [ifGo]
      rw [if_pos hc]
      exact ⟨fun _ => ⟨f, List.mem_cons_self f fs, hc⟩, fun _ => rfl⟩
    · by_cases hb : r1 < f.start
      · simp only [ifGo]
        rw [if_neg hc, if_pos hb]
        constructor
        · intro hfalse; exact absurd hfalse (by simp)
        · rintro ⟨g, hg, hcg⟩
          exfalso
          rcases List.mem_cons.mp hg with hgf | hgfs
          · exact hc (hgf ▸ hcg)
          · have hsg : f.start ≤ g.start := hf g hgfs
            rcases hcg with ⟨hg1, _⟩ | ⟨hg1, _⟩ <;> omega
      · simp only [ifGo]
        rw [if_neg hc, if_neg hb, ih hp']
        constructor
        · rintro ⟨g, hg, hcg⟩
          exact ⟨g, List.mem_cons_of_mem f hg, hcg⟩
        · rintro ⟨g, hg, hcg⟩
          rcases List.mem_cons.mp hg with hgf | hgfs
          · exact absurd (hgf ▸ hcg) hc
          · exact ⟨g, hgfs, hcg⟩

/-- C4 (amended): for reads with a valid coverage hull and features in
ascending start order, in_features returns true if and only if some
feature's inclusive interval contains one of the two coverage endpoints
(a feature nested strictly inside the hull, touching neither endpoint, is
not detected even though it intersects the hull). -/
theorem in_features_endpoint_iff (reads : List Read) (features : List Feature)
    (hv : (coverage reads).1 ≤ (coverage reads).2)
    (hs : List.Pairwise (fun f g => f.start ≤ g.start) features) :
    in_features reads features = true ↔
      ∃ f ∈ features,
        (f.start ≤ (coverage reads).1 ∧ (coverage reads).1 ≤ f.fEnd) ∨
        (f.start ≤ (coverage reads).2 ∧ (coverage reads).2 ≤ f.fEnd) :=
  ifGo_iff (coverage reads).1 (coverage reads).2 hv features hs

/-- C4 counterexample: the read cr4 covers (1, 10) and the feature cf4
spans [3, 4], strictly inside the coverage, so the two intervals intersect;
yet in_features returns false, refuting the claimed intersection
equivalence. -/
theorem in_features_nested_counterexample :
    cf4.start ≤ cf4.fEnd ∧
    (coverage [cr4]).1 ≤ cf4.start ∧ cf4.fEnd ≤ (coverage [cr4]).2 ∧
    cr4.pos ≠ 0 ∧
    in_features [cr4] [cf4] = false := by
  decide

theorem in_features_endpoint_iff_witness :
    in_features [wr4] [wf4] = true :=
  (in_features_endpoint_iff [wr4] [wf4] (by decide) (by simp)).mpr
    ⟨wf4, List.mem_singleton.mpr rfl, Or.inr (by decide)⟩

theorem digitChar_spec (d : Nat) (hd : d < 10) :
    (Char.ofNat (48 + d)).isDigit = true ∧ (Char.ofNat (48 + d)).toNat = 48 + d := by
  interval_cases d <;> exact ⟨rfl, rfl⟩

theorem toNatDigits_append_singleton (ds : List Char) (c : Char) :
    toNatDigits (ds ++ [c]) = 10 * toNatDigits ds + (c.toNat - 48) := by
  rw [toNatDigits, toNatDigits, List.foldl_append]
  rfl

theorem natDigitsF_spec :
    ∀ fuel n : Nat, n < fuel →
      toNatDigits (natDigitsF fuel n) = n ∧ natDigitsF fuel n ≠ [] ∧
        ∀ c ∈ natDigitsF fuel n, c.isDigit = true := by
  intro fuel
  induction fuel with
  | zero => intro n hn; exact absurd hn (Nat.not_lt_zero n)
  | succ f ih =>
    intro n hn
    by_cases h10 : n < 10
    · refine ⟨?_, ?_, ?_⟩
      · rw [natDigitsF, if_pos h10, toNatDigits]
        simp [(digitChar_spec n h10).2]
      · rw [natDigitsF, if_pos h10]
        exact List.cons_ne_nil _ _
      · rw [natDigitsF, if_pos h10]
        intro c hc
        rw [List.mem_singleton] at hc
        exact hc ▸ (digitChar_spec n h10).1
    · have hdiv : n / 10 < f := by
        have h1 : n / 10 < n := Nat.div_lt_self (by omega) (by omega)
        omega
      obtain ⟨ihv, ihne, ihd⟩ := ih (n / 10) hdiv
      rw [natDigitsF, if_neg h10]
      refine ⟨?_, ?_, ?_⟩
      · rw [toNatDigits_append_singleton, ihv, (digitChar_spec (n % 10) (by omega)).2]
        omega
      · simp
      · intro c hc
        rcases List.mem_append.mp hc with hc | hc
        · exact ihd c hc
        · rw [List.mem_singleton] at hc
          exact hc ▸ (digitChar_spec (n % 10) (by omega)).1

theorem natDigits_spec (n : Nat) :
    toNatDigits (natDigits n) = n ∧ natDigits n ≠ [] ∧
      ∀ c ∈ natDigits n, c.isDigit = true :=
  natDigitsF_spec (n + 1) n (Nat.lt_succ_self n)

theorem rcGo_digit_run :
    ∀ ds : List Char, (∀ c ∈ ds, c.isDigit = true) →
      ∀ (acc : List Char) (c : Char), c.isDigit = false → acc ++ ds ≠ [] →
        ∀ t : List Char,
          rcGo acc (ds ++ c :: t) = (toNatDigits (acc ++ ds), c) :: rcGo [] t := by
  intro ds
  induction ds with
  | nil =>
    intro _ acc c hc hne t
    rw [List.append_nil] at hne ⊢
    rw [List.nil_append, rcGo, hc]
    simp only [Bool.false_eq_true, if_false]
    rw [if_neg hne]
  | cons d ds ih =>
    intro hd acc c hc hne t
    have hdd : d.isDigit = true := hd d (List.mem_cons_self d ds)
    rw [List.cons_append, rcGo, hdd]
    simp only [if_true]
    have := ih (fun x hx => hd x (List.mem_cons_of_mem d hx)) (acc ++ [d]) c hc
      (by simp) t
    rw [this, List.append_assoc, List.singleton_append]

theorem rcGo_print :
    ∀ ops : List (Nat × Char), (∀ p ∈ ops, p.2.isDigit = false) →
      rcGo [] (ops.flatMap (fun p => natDigits p.1 ++ [p.2])) = ops := by
  intro ops
  induction ops with
  | nil => intro _; rfl
  | cons q rest ih =>
    intro hnd
    obtain ⟨hv, hne, hdig⟩ := natDigits_spec q.1
    rw [List.flatMap_cons, List.append_assoc, List.singleton_append]
    rw [rcGo_digit_run (natDigits q.1) hdig [] q.2
      (hnd q (List.mem_cons_self q rest)) (by simpa using hne) _]
    rw [List.nil_append, hv, ih (fun p hp => hnd p (List.mem_cons_of_mem q hp))]

/-- C9: for every well-formed operation string (the literal '*', or a
non-empty concatenation of canonically written decimal-length/non-digit-kind
tokens, i.e. the serializations of non-empty valid operation lists),
serializing the parse result returns the original string; '*' parses to the
empty list and the empty list renders as '*'. -/
theorem cigar_round_trip (s : List Char) (h : WellFormedCigarString s) :
    print_cigar (read_cigar s) = s := by
  rcases h with h | ⟨ops, hne, hnd, hs⟩
  · subst h; rfl
  · subst hs
    have h1 : read_cigar (print_cigar ops) = ops := by
      rw [read_cigar, print_cigar, if_neg hne]
      exact rcGo_print ops hnd
    rw [h1]

theorem cigar_round_trip_witness :
    print_cigar (read_cigar ['1', '8', 'M', '2', 'D', '2', '0', 'M']) =
      ['1', '8', 'M', '2', 'D', '2', '0', 'M'] :=
  cigar_round_trip ['1', '8', 'M', '2', 'D', '2', '0', 'M']
    (Or.inr ⟨[(18, 'M'), (2, 'D'), (20, 'M')], by decide, by decide, by decide⟩)

theorem filter_replicate_dot (n : Nat) :
    (List.replicate n '.').filter (fun c => decide (c ≠ '.')) = [] := by
  induction n with
  | zero => rfl
  | succ m ih => simp [List.replicate_succ, ih]

theorem filter_pyInsertDots (s : List Char) (i : Int) (n : Nat) :
    (pyInsertDots s i n).filter (fun c => decide (c ≠ '.')) =
      s.filter (fun c => decide (c ≠ '.')) := by
  rw [pyInsertDots, List.filter_append, List.filter_append, filter_replicate_dot,
    List.append_nil, ← List.filter_append, List.take_append_drop]

theorem filter_foldl_insert (queue : List (Int × Nat)) :
    ∀ s : List Char,
      ((queue.foldl (fun s p => pyInsertDots s p.1 p.2) s).filter (fun c => decide (c ≠ '.'))) =
        s.filter (fun c => decide (c ≠ '.')) := by
  induction queue with
  | nil => intro s; rfl
  | cons q qs ih =>
    intro s
    rw [List.foldl_cons, ih, filter_pyInsertDots]

theorem filter_dot_from_queue (sr : SR) (queue : List (Int × Nat)) :
    (dot_from_queue sr queue).filter (fun c => decide (c ≠ '.')) =
      sr.1.filter (fun c => decide (c ≠ '.')) :=
  filter_foldl_insert queue sr.1

theorem map_getD_range (l : List Char) :
    (List.range l.length).map (fun k => l.getD k 'N') = l := by
  apply List.ext_getElem
  · simp
  · intro i h1 h2
    simp [List.getD_eq_getElem?_getD, List.getElem?_eq_getElem h2]

theorem column_singleton (d : List Char) (c : Cigar) (p : Int) (k : Nat)
    (hk : k < d.length) :
    column [(d, c, p)] (p + (k : Int)) = [d.getD k 'N'] := by
  rw [column]
  simp only [List.flatMap_cons, List.flatMap_nil, List.append_nil]
  rw [if_pos (by constructor <;> omega)]
  have hToNat : (p + (k : Int) - p).toNat = k := by omega
  rw [hToNat]

theorem majority_singleton (c : Char) (cutoff : ℚ) (h : cutoff < 1) :
    majority [c] cutoff = c := by
  have hgt : (([c] : List Char).count c : ℚ) / (([c] : List Char).length : ℚ) > cutoff := by
    have h1 : (([c] : List Char).count c : ℚ) / (([c] : List Char).length : ℚ) = 1 := by
      norm_num
    rw [h1]
    exact h
  rw [majority]
  simp only [majGo]
  rw [if_pos hgt]

/-- C8 (amended): consensus of the one-read group of a mapped read, with
cutoff 0.5, returns the read's sequence with all gap characters '.'
removed, provided the gap-dotted sequence is non-empty (in particular
whenever the read's own sequence is non-empty); when the dotted sequence is
empty the code instead fails on min over no recorded positions. -/
theorem consensus_single_read (r : Read)
    (hp : r.pos ≠ 0)
    (hd : dot_from_queue (r.seq, r.cigar, r.pos)
        (make_dot_queue (r.seq, r.cigar, r.pos) [(r.seq, r.cigar, r.pos)]) ≠ []) :
    consensus [r] (1 / 2) = Except.ok (r.seq.filter (fun c => decide (c ≠ '.'))) := by
  set d : List Char := dot_from_queue (r.seq, r.cigar, r.pos)
      (make_dot_queue (r.seq, r.cigar, r.pos) [(r.seq, r.cigar, r.pos)]) with hddef
  have hd0 : dot_indels [r] = [(d, r.cigar, r.pos)] := rfl
  have hdl : d.length ≠ 0 := fun hzero => hd (List.length_eq_zero.mp hzero)
  simp only [consensus, hd0]
  rw [if_neg (by simp [hp])]
  have hk : keyBounds [(d, r.cigar, r.pos)] =
      [(r.pos, r.pos + (d.length : Int) - 1)] := by
    simp only [keyBounds, List.filterMap_cons, List.filterMap_nil]
    rw [if_neg hdl]
  simp only [consensusMapped, hk]
  have hmin : minKey (r.pos, r.pos + (d.length : Int) - 1) [] = r.pos := rfl
  have hmax : maxKey (r.pos, r.pos + (d.length : Int) - 1) [] =
      r.pos + (d.length : Int) - 1 := rfl
  rw [hmin, hmax]
  have hlen : (r.pos + (d.length : Int) - 1 - r.pos + 1).toNat = d.length := by omega
  rw [consensusRange, hlen]
  have hmap : (List.range d.length).map (fun (k : Nat) =>
      match column [(d, r.cigar, r.pos)] (r.pos + (k : Int)) with
      | [] => 'N'
      | l => majority l (1 / 2)) = d := by
    have hcong : ∀ k ∈ List.range d.length,
        (match column [(d, r.cigar, r.pos)] (r.pos + (k : Int)) with
          | [] => 'N'
          | l => majority l (1 / 2)) = d.getD k 'N' := by
      intro k hkmem
      rw [List.mem_range] at hkmem
      rw [column_singleton d r.cigar r.pos k hkmem]
      exact majority_singleton (d.getD k 'N') (1 / 2) (by norm_num)
    rw [List.map_congr_left hcong, map_getD_range]
  rw [hmap, filter_dot_from_queue]

/-- C8 counterexample: the mapped read cex8 (position 5, empty sequence,
empty cigar) refutes the claim as stated: its sequence with dots removed is
the empty sequence, but consensus does not return it; it fails because the
range min is taken over an empty set of recorded positions. -/
theorem consensus_single_empty_counterexample :
    cex8.pos ≠ 0 ∧
    cex8.seq.filter (fun c => decide (c ≠ '.')) = [] ∧
    consensus [cex8] (1 / 2) = Except.error ConsensusError.emptyRange := by
  refine ⟨by decide, rfl, rfl⟩

theorem consensus_single_read_witness :
    consensus [wr8] (1 / 2) = Except.ok ['A', 'C', 'G', 'T'] := by
  have h := consensus_single_read wr8 (by decide) (by decide)
  rw [h]
  rfl
